import Mathlib

/-!
Verification development for the Suspicious Site Reporter extension:
the public-suffix (TLD) resolution engine (`publicsuffix.Tld`) and the
alert-evaluation layer (`suspiciousSiteReporter.alerts`).

Strings are modelled as `List Char` (JS strings are sequences of code
units; all operations used by the source are code-unit-wise).
-/

/-- Modelled from the spec: the `goog.structs.Trie` collaborator (third-party
Closure Library, not part of this repository's sources) is, per the spec's
data model, a read-only mapping from string keys to booleans.  We represent
the mapping as an association list where `set` prepends (so the most recent
`set` for a key wins on `lookup`, matching the overwriting `set` of the
library). -/
abbrev Trie := List (List Char × Bool)

/-- Modelled from the spec: `goog.structs.Trie.set(key, value)` stores
`value` under `key`, overwriting any previous value. -/
def Trie.set (t : Trie) (k : List Char) (v : Bool) : Trie :=
  (k, v) :: t

/-- The value stored for a key, if any (the most recent `set` wins). -/
def Trie.lookup (t : Trie) (k : List Char) : Option Bool :=
  (t.find? (fun kv => kv.1 == k)).map (fun kv => kv.2)

/-- JS `s.substr(0, n)` for possibly negative `n`: a negative length yields
the empty string. -/
def jsSubstrTo (l : List Char) (n : Int) : List Char :=
  l.take n.toNat

/-- JS `s.lastIndexOf(c)` for a single character: the index of the last
occurrence of `c`, or `-1` if absent. -/
def lastIndexOfChar (l : List Char) (c : Char) : Int :=
  match (List.range l.length).reverse.find? (fun i => l[i]? == some c) with
  | some i => (i : Int)
  | none => -1

/-- The three tries of `publicsuffix.Tld`: exact, excluded and wildcard
rules, decoded from `publicsuffixpatterns.EXACT` / `.EXCLUDED` / `.UNDER`. -/
structure TldTries where
  exactPatterns : Trie
  excludePatterns : Trie
  wildcardPatterns : Trie

/-- One step of `Tld.getLongestMatch_`'s filtering, phrased over the length
`L` of a candidate key (the source iterates over the positions returned by
`trie.getKeyAndPrefixes(host)`, where a key that is a prefix of `host` of
length `L` is reported at position `L - 1`; the source then requires
`position + 1 == host.length || host.charAt(position + 1) == '.'` and
`!icannOnly || matches[positionKey] == true`). -/
def validMatchLen (trie : Trie) (host : List Char) (icannOnly : Bool) (L : Nat) : Bool :=
  match Trie.lookup trie (host.take L) with
  | none => false
  | some v =>
      decide (0 < L) &&
      (decide (L = host.length) || (host[L]? == some '.')) &&
      (!icannOnly || v)

/-- `Tld.getLongestMatch_(trie, host, icannOnly)` from
src/unnamed/part_001 lines 107-121: the longest key of `trie` that is a
prefix of the (already reversed) `host`, ends on a label boundary, and
fulfils the `icannOnly` requirement; the empty string when there is no
such key. -/
def getLongestMatch_ (trie : Trie) (host : List Char) (icannOnly : Bool) : List Char :=
  host.take (((List.range (host.length + 1)).filter (validMatchLen trie host icannOnly)).foldr max 0)

/-- `Tld.prototype.getTld(host, icannOnly)` from src/unnamed/part_001
lines 60-93, in static-single-assignment form (the source mutates
`tldCandidate`, `excludeCandidate` and `host`; each reassignment gets a
fresh name here). -/
def TldTries.getTld (self : TldTries) (host0 : List Char) (icannOnly : Bool) : List Char :=
  -- host = host.split('').reverse().join('')
  let host := host0.reverse
  -- exact match candidate
  let tldCandidate := getLongestMatch_ self.exactPatterns host icannOnly
  let excludeCandidate0 := getLongestMatch_ self.excludePatterns host icannOnly
  -- if (excludeCandidate.length > 0) strip everything from the last '.'
  let excludeCandidate :=
    if 0 < excludeCandidate0.length then
      jsSubstrTo excludeCandidate0 (lastIndexOfChar excludeCandidate0 '.')
    else excludeCandidate0
  let tldCandidate1 :=
    if 0 < excludeCandidate0.length ∧ tldCandidate.length < excludeCandidate.length then
      excludeCandidate
    else tldCandidate
  let wildcardCandidate := getLongestMatch_ self.wildcardPatterns host icannOnly
  let tldCandidate2 :=
    if 0 < wildcardCandidate.length ∧ wildcardCandidate.length < host.length ∧
        wildcardCandidate.length ≠ excludeCandidate.length then
      -- host = host.substr(wildcardCandidate.length + 1);
      -- wildcardCandidate += '.' + host.split('.')[0];
      let host2 := host.drop (wildcardCandidate.length + 1)
      let wildcardCandidate2 := wildcardCandidate ++ '.' :: host2.takeWhile (fun c => c ≠ '.')
      if tldCandidate1.length < wildcardCandidate2.length then wildcardCandidate2 else tldCandidate1
    else tldCandidate1
  tldCandidate2.reverse

/-- The scanning `for` loop at the start of `Tld.doParseTrie_`
(src/unnamed/part_001 lines 157-170): accumulate literal characters onto
the prefix until one of the five tag characters `!:?,&` is met; running
past the end of the pattern is the assertion failure
`goog.asserts.assert(idx < pattern.length)`, modelled as `none`.  The
pattern is represented by its unparsed remainder (`rest = pattern.drop idx`
for the source's index `idx`). -/
def scanNode : List Char → List Char → Option (List Char × Char × List Char)
  | _, [] => none
  | pre, c :: rest =>
    if c == '!' || c == ':' || c == '?' || c == ',' || c == '&' then some (pre, c, rest)
    else scanNode (pre ++ [c]) rest

mutual

/-- `Tld.doParseTrie_(idx, prefix, pattern, trie)` from src/unnamed/part_001
lines 148-189.  Returns the unparsed remainder of the pattern together with
the extended trie; `none` models an assertion failure or divergence (the
`fuel` argument only bounds the recursion depth, which the source leaves
unbounded; `createTrie_` supplies fuel that is ample for every terminating
parse). -/
def doParseTrie_ : Nat → List Char → List Char → Trie → Option (List Char × Trie)
  | 0, _, _, _ => none
  | Nat.succ fuel, pre, pat, trie =>
    match scanNode pre pat with
    | none => none
    | some (pre2, c, rest) =>
      -- if (c != '&') trie.set(prefix, c == '!' || c == '?');
      let trie2 := if c ≠ '&' then Trie.set trie pre2 (c == '!' || c == '?') else trie
      -- if (c == '?' || c == ',') return idx;
      if c == '?' || c == ',' then some (rest, trie2)
      else doParseChildren_ fuel pre2 rest trie2

/-- The `do { idx = Tld.doParseTrie_(...); c = pattern.charAt(idx); }
while (c != '?' && c != ',')` loop of `Tld.doParseTrie_` (lines 182-185),
followed by `return idx + 1` consuming the terminating character. -/
def doParseChildren_ : Nat → List Char → List Char → Trie → Option (List Char × Trie)
  | 0, _, _, _ => none
  | Nat.succ fuel, pre, pat, trie =>
    match doParseTrie_ fuel pre pat trie with
    | none => none
    | some (rest, trie2) =>
      if rest.head? == some '?' || rest.head? == some ',' then some (rest.tail, trie2)
      else doParseChildren_ fuel pre rest trie2

end

/-- `Tld.createTrie_(pattern)` from src/unnamed/part_001 lines 130-136:
parse the whole encoded pattern into a trie; the final assertion
`goog.asserts.assert(idx == pattern.length)` is modelled by requiring an
empty remainder. -/
def createTrie_ (pattern : List Char) : Option Trie :=
  match doParseTrie_ (2 * pattern.length + 2) [] pattern [] with
  | some (rest, trie) => if rest = [] then some trie else none
  | none => none

mutual

/-- Modelled from the spec (§4.1): the recursive descent over the encoded
pattern, collecting, in traversal order, the accumulated literal prefix and
ICANN flag of every member-tagged node (tags `!` and `?` denote ICANN, `:`
and `,` denote private; `&` marks a structural interior node that is not a
member).  This is the specification-side description of what
`Tld.doParseTrie_` stores; it mirrors the traversal but records a list of
entries instead of mutating a trie. -/
def specParseEntries : Nat → List Char → List Char → Option (List Char × List (List Char × Bool))
  | 0, _, _ => none
  | Nat.succ fuel, pre, pat =>
    match scanNode pre pat with
    | none => none
    | some (pre2, c, rest) =>
      let es := if c ≠ '&' then [(pre2, c == '!' || c == '?')] else []
      if c == '?' || c == ',' then some (rest, es)
      else
        match specParseChildren fuel pre2 rest with
        | none => none
        | some (rest2, es2) => some (rest2, es ++ es2)

/-- Modelled from the spec (§4.1): the sibling-list traversal accompanying
`specParseEntries`. -/
def specParseChildren : Nat → List Char → List Char → Option (List Char × List (List Char × Bool))
  | 0, _, _ => none
  | Nat.succ fuel, pre, pat =>
    match specParseEntries fuel pre pat with
    | none => none
    | some (rest, es) =>
      if rest.head? == some '?' || rest.head? == some ',' then some (rest.tail, es)
      else
        match specParseChildren fuel pre rest with
        | none => none
        | some (rest2, es2) => some (rest2, es ++ es2)

end

/-- Modelled from the spec (§4.1): the ordered list of (accumulated literal
prefix, ICANN flag) pairs of the member-tagged nodes of a well-formed
encoded pattern. -/
def specMemberEntries (pattern : List Char) : Option (List (List Char × Bool)) :=
  match specParseEntries (2 * pattern.length + 2) [] pattern with
  | some (rest, es) => if rest = [] then some es else none
  | none => none

/-- A URL as handed around by the browser: `new URL(s).hostname` is a host
API, so a URL is modelled as carrying the hostname the browser's parser
yields for it. -/
structure Url where
  hostname : List Char
deriving DecidableEq, Repr

/-- An entry of the browsing-history collaborator's response
(`chrome.history.search`). -/
structure HistoryItem where
  url : Url
deriving DecidableEq, Repr

/-- A member of `serverRedirectChain` in a referrer-chain entry. -/
structure ServerRedirect where
  url : List Char
deriving DecidableEq, Repr

/-- An entry of the referrer chain returned by
`chrome.safeBrowsingPrivate.getReferrerChain`; `none` models an absent
(JS `undefined`) field. -/
structure ReferrerEntry where
  urlType : List Char
  referrerUrl : Option (List Char)
  serverRedirectChain : Option (List ServerRedirect)
deriving DecidableEq, Repr

/-- The collaborator state the alerts module reads: the decoded suffix
tries (`Tld.getInstance()`), the top-sites dictionary (`topSitesList`,
truthy membership), the browsing-history response for the query window,
and the referrer-chain provider (availability flag plus per-tab chain). -/
structure ChromeEnv where
  tld : TldTries
  topSitesList : List Char → Bool
  historyPages : List HistoryItem
  referrerAvailable : Bool
  referrerChain : Nat → List ReferrerEntry

/-- `ALERT_MESSAGES['isIDN']` (src/extension/alerts.js lines 24-30). -/
def ALERT_MESSAGES_isIDN : List Char := ("Domain uses uncommon characters".toList)

/-- `ALERT_MESSAGES['longSubdomains']`. -/
def ALERT_MESSAGES_longSubdomains : List Char := ("Unusually long subdomains".toList)

/-- `ALERT_MESSAGES['notTopSite']`. -/
def ALERT_MESSAGES_notTopSite : List Char := ("Site not in top 5k sites".toList)

/-- `ALERT_MESSAGES['notVisitedBefore']`. -/
def ALERT_MESSAGES_notVisitedBefore : List Char := ("Haven\x27t visited site in the last 3 months".toList)

/-- `ALERT_MESSAGES['manySubdomains']`. -/
def ALERT_MESSAGES_manySubdomains : List Char := ("Unusually many subdomains".toList)

/-- `NUM_SUSPICIOUS_SUBDOMAINS` (alerts.js line 33). -/
def NUM_SUSPICIOUS_SUBDOMAINS : Nat := 4

/-- `SUSPICIOUS_SUBDOMAIN_LENGTH` (alerts.js line 39). -/
def SUSPICIOUS_SUBDOMAIN_LENGTH : Nat := 22

/-- `getDomain(url)` (alerts.js lines 49-51): `new URL(url).hostname`,
i.e. the hostname the browser's URL parser associates with the url. -/
def getDomain (u : Url) : List Char :=
  u.hostname

/-- JS `String.prototype.toLowerCase` restricted to the ASCII range
(hostnames are ASCII-compatible encodings). -/
def jsToLowerCase (l : List Char) : List Char :=
  l.map Char.toLower

/-- JS `s.lastIndexOf(sub)` for a non-empty needle: the greatest start
index of an occurrence of `sub` in `l`, or `-1` if there is none. -/
def lastIndexOfSub (l sub : List Char) : Int :=
  match (List.range (l.length + 1)).reverse.find? (fun i => sub.isPrefixOf (l.drop i)) with
  | some i => (i : Int)
  | none => -1

/-- JS `s.slice(0, n)`: a negative `n` counts from the end of the string
(clamped at zero). -/
def jsSliceTo (l : List Char) (n : Int) : List Char :=
  l.take (if n < 0 then ((l.length : Int) + n).toNat else n.toNat)

/-- `getDomainPartsWithoutTld(domain)` (alerts.js lines 58-61):
`domain.slice(0, domain.lastIndexOf('.' + getTld(domain, true))).split('.')`. -/
def getDomainPartsWithoutTld (t : TldTries) (domain : List Char) : List (List Char) :=
  let suffix := '.' :: t.getTld domain true
  List.splitOn '.' (jsSliceTo domain (lastIndexOfSub domain suffix))

/-- The literal `'xn--'`. -/
def xnDashDash : List Char := ("xn--".toList)

/-- The regular expression test `/\.(xn--)/.test(domain)`: some occurrence
of `'.'` immediately followed by `'xn--'`. -/
def hasDotXn : List Char → Bool
  | [] => false
  | c :: rest => (c == '.' && xnDashDash.isPrefixOf rest) || hasDotXn rest

/-- `isIDN(domain)` (alerts.js lines 69-75): the domain starts with
`'xn--'` or contains `'.xn--'`. -/
def isIDN (domain : List Char) : Bool :=
  xnDashDash.isPrefixOf domain || hasDotXn domain

/-- `eTLD+1` as computed inside `isTopSite` (alerts.js lines 83-86):
the last element of `getDomainPartsWithoutTld(domain)` concatenated with
`'.' + getTld(domain, true)`. -/
def etldPlusOne (t : TldTries) (domain : List Char) : List Char :=
  let suffix := '.' :: t.getTld domain true
  let domainPartsWithoutTld := getDomainPartsWithoutTld t domain
  domainPartsWithoutTld.getLastD [] ++ suffix

/-- `isTopSite(domain)` (alerts.js lines 82-89): membership of the
lowercased eTLD+1 in the top-sites dictionary. -/
def isTopSite (env : ChromeEnv) (domain : List Char) : Bool :=
  env.topSitesList (jsToLowerCase (etldPlusOne env.tld domain))

/-- `visitedBeforeToday(domain)` (alerts.js lines 124-147).  The browser
collaborator `chrome.history.search` supplies the entries for the window
[now - 90 days, now - 1 day]; the promise resolves `true` immediately when
that list is empty (the source's first `resolve(true)` wins over the
following `resolve(pages.some(...))`), and otherwise reports whether some
entry's URL has hostname equal to `domain`. -/
def visitedBeforeToday (env : ChromeEnv) (domain : List Char) : Bool :=
  let pages := env.historyPages
  if pages.length = 0 then true
  else pages.any (fun page => getDomain page.url == domain)

/-- `hasManySubdomains(domain)` (alerts.js lines 154-157). -/
def hasManySubdomains (t : TldTries) (domain : List Char) : Bool :=
  decide (NUM_SUSPICIOUS_SUBDOMAINS ≤ (getDomainPartsWithoutTld t domain).length)

/-- `hasLongSubdomains(domain)` (alerts.js lines 164-168). -/
def hasLongSubdomains (t : TldTries) (domain : List Char) : Bool :=
  (getDomainPartsWithoutTld t domain).any
    (fun subdomain => decide (SUSPICIOUS_SUBDOMAIN_LENGTH ≤ subdomain.length))

/-- The literal `'CLIENT_REDIRECT'`. -/
def CLIENT_REDIRECT : List Char := ("CLIENT_REDIRECT".toList)

/-- JS `Set.prototype.add`: append the element unless already present. -/
def addToSet (s : List (List Char)) (x : List Char) : List (List Char) :=
  if x ∈ s then s else s ++ [x]

/-- The `referrerEntry.serverRedirectChain.forEach(...)` loop of
`fetchRedirectUrls` (alerts.js lines 197-202): add every server-redirect
URL different from the page's own URL. -/
def addServerRedirects (url : List Char) (srs : List ServerRedirect)
    (acc : List (List Char)) : List (List Char) :=
  srs.foldl (fun a sr => if sr.url ≠ url then addToSet a sr.url else a) acc

/-- The `for (const referrerEntry of referrer)` loop of `fetchRedirectUrls`
(alerts.js lines 183-203): walk the chain most-recent-first, stop at the
first entry that is not a client redirect, collect the (truthy) referrer
URL when different from the current URL, and all server-redirect URLs
different from the current URL. -/
def collectRedirectUrls (url : List Char) : List ReferrerEntry → List (List Char) → List (List Char)
  | [], acc => acc
  | e :: rest, acc =>
    if e.urlType ≠ CLIENT_REDIRECT then acc
    else
      let acc1 :=
        match e.referrerUrl with
        | some r => if r ≠ [] then (if r ≠ url then addToSet acc r else acc) else acc
        | none => acc
      let acc2 :=
        match e.serverRedirectChain with
        | some srs => addServerRedirects url srs acc1
        | none => acc1
      collectRedirectUrls url rest acc2

/-- `fetchRedirectUrls(url, tabId)` (alerts.js lines 177-209): the set of
redirect URLs from the tab's referrer chain, or the empty set when the
referrer-chain collaborator is unavailable. -/
def fetchRedirectUrls (env : ChromeEnv) (url : List Char) (tabId : Nat) : List (List Char) :=
  if env.referrerAvailable then collectRedirectUrls url (env.referrerChain tabId) []
  else []

/-- `computeAlerts(url, tabId)` (alerts.js lines 217-235), in
static-single-assignment form: extract and lowercase the hostname, await
the history check, then push the alert messages in source order (the
`tabId` parameter is unused by the source's body). -/
def computeAlerts (env : ChromeEnv) (url : Url) (_tabId : Nat) : List (List Char) :=
  let domain := jsToLowerCase (getDomain url)
  let visited := visitedBeforeToday env domain
  let newAlerts : List (List Char) := []
  let newAlerts1 :=
    if !isTopSite env domain then
      let pushed := newAlerts ++ [ALERT_MESSAGES_notTopSite]
      if isIDN domain then pushed ++ [ALERT_MESSAGES_isIDN] else pushed
    else newAlerts
  let newAlerts2 := if !visited then newAlerts1 ++ [ALERT_MESSAGES_notVisitedBefore] else newAlerts1
  let newAlerts3 :=
    if hasManySubdomains env.tld domain then newAlerts2 ++ [ALERT_MESSAGES_manySubdomains] else newAlerts2
  let newAlerts4 :=
    if hasLongSubdomains env.tld domain then newAlerts3 ++ [ALERT_MESSAGES_longSubdomains] else newAlerts3
  newAlerts4

/-- Strip the last (reversed-orientation) label from an excluded-trie match:
`excludeCandidate.substr(0, excludeCandidate.lastIndexOf('.'))`
(src/unnamed/part_001 lines 73-74). -/
def stripLastLabel (l : List Char) : List Char :=
  jsSubstrTo l (lastIndexOfChar l '.')

/-- `host.split('.')[0]`: the first label of a reversed host remainder. -/
def firstLabel (l : List Char) : List Char :=
  l.takeWhile (fun c => c ≠ '.')

/-- The longest of a list of candidate strings by character length, earlier
candidates winning ties (the empty string when all candidates are empty). -/
def chooseLongest (cs : List (List Char)) : List Char :=
  cs.foldl (fun acc c => if acc.length < c.length then c else acc) []

/-- Modelled from the spec (§4.2): the resolver as the longest of the three
candidates — A the exact-trie match, B the excluded-trie match with its
last label stripped (when the excluded match is non-empty), and C the
wildcard match extended by exactly one more label (only when the wildcard
match is shorter than the reversed host and its length does not coincide
with the stripped excluded match, the exception rule taking precedence) —
reversed back to normal orientation. -/
def specGetTld (t : TldTries) (host : List Char) (icannOnly : Bool) : List Char :=
  let rhost := host.reverse
  let exactMatch := getLongestMatch_ t.exactPatterns rhost icannOnly
  let excludeMatch := getLongestMatch_ t.excludePatterns rhost icannOnly
  let candidateB := if excludeMatch ≠ [] then stripLastLabel excludeMatch else []
  let wildcardMatch := getLongestMatch_ t.wildcardPatterns rhost icannOnly
  let candidateC :=
    if wildcardMatch ≠ [] ∧ wildcardMatch.length < rhost.length ∧
        wildcardMatch.length ≠ candidateB.length then
      wildcardMatch ++ '.' :: firstLabel (rhost.drop (wildcardMatch.length + 1))
    else []
  (chooseLongest [exactMatch, candidateB, candidateC]).reverse

/-- The value of the last entry for a key in a parse-order entry list. -/
def findLastVal : List (List Char × Bool) → List Char → Option Bool
  | [], _ => none
  | kv :: rest, k =>
    match findLastVal rest k with
    | some v => some v
    | none => if kv.1 == k then some kv.2 else none

def c3Tries : TldTries := ⟨[("moc".toList, true)], [], []⟩

def c3Env : ChromeEnv :=
  { tld := c3Tries
    topSitesList := fun d => d == ("site.com".toList)
    historyPages := [⟨⟨("site.com".toList)⟩⟩]
    referrerAvailable := true
    referrerChain := fun _ =>
      [⟨("CLIENT_REDIRECT".toList), some ("http://goo.gl/a".toList),
        some [⟨("https://goo.gl/b".toList)⟩]⟩] }

def c9Env : ChromeEnv :=
  { tld := ⟨[("moc".toList, true)], [], []⟩
    topSitesList := fun d => d == ("site.com".toList)
    historyPages := []
    referrerAvailable := false
    referrerChain := fun _ => [] }

def c10Env : ChromeEnv :=
  { tld := ⟨[("moc".toList, true)], [], []⟩
    topSitesList := fun _ => false
    historyPages := []
    referrerAvailable := false
    referrerChain := fun _ => [] }

lemma foldr_max_mem (l : List Nat) (h : l.foldr max 0 ≠ 0) : l.foldr max 0 ∈ l := by
  induction l with
  | nil => simp at h
  | cons a t ih =>
    simp only [List.foldr_cons] at h ⊢
    rcases Nat.le_total (t.foldr max 0) a with hle | hle
    · rw [Nat.max_eq_left hle]
      exact List.mem_cons_self a t
    · rw [Nat.max_eq_right hle] at h ⊢
      exact List.mem_cons_of_mem a (ih h)

lemma glm_valid (trie : Trie) (host : List Char) (i : Bool)
    (h : getLongestMatch_ trie host i ≠ []) :
    ∃ L, getLongestMatch_ trie host i = host.take L ∧ 0 < L ∧ L ≤ host.length ∧
      validMatchLen trie host i L = true := by
  unfold getLongestMatch_ at *
  set lst := (List.range (host.length + 1)).filter (validMatchLen trie host i) with hlst
  by_cases h0 : lst.foldr max 0 = 0
  · rw [h0] at h
    simp at h
  · have hmem := foldr_max_mem lst h0
    rw [hlst] at hmem
    have hval := List.of_mem_filter hmem
    have hrange := (List.mem_filter.mp hmem).1
    rw [List.mem_range] at hrange
    exact ⟨lst.foldr max 0, rfl, Nat.pos_of_ne_zero h0, Nat.lt_succ_iff.mp hrange, hval⟩

lemma validMatchLen_spec (trie : Trie) (host : List Char) (i : Bool) (L : Nat)
    (h : validMatchLen trie host i L = true) :
    (Trie.lookup trie (host.take L)).isSome = true ∧ 0 < L ∧
      (L = host.length ∨ host[L]? = some '.') ∧
      (i = true → Trie.lookup trie (host.take L) = some true) := by
  unfold validMatchLen at h
  cases hl : Trie.lookup trie (host.take L) with
  | none => rw [hl] at h; simp at h
  | some v =>
    rw [hl] at h
    simp only [Bool.and_eq_true, Bool.or_eq_true, decide_eq_true_eq, beq_iff_eq] at h
    obtain ⟨⟨hpos, hbound⟩, hic⟩ := h
    refine ⟨by simp, hpos, hbound, ?_⟩
    intro hi
    subst hi
    rcases hic with hbad | hv
    · simp at hbad
    · rw [hv]

lemma glm_isPre (trie : Trie) (host : List Char) (i : Bool) :
    getLongestMatch_ trie host i <+: host :=
  ⟨_, List.take_append_drop _ _⟩

lemma isPre_append_left {α : Type} (zs : List α) {xs ys : List α} (h : xs <+: ys) :
    zs ++ xs <+: zs ++ ys := by
  obtain ⟨u, hu⟩ := h
  exact ⟨u, by rw [List.append_assoc, hu]⟩

lemma takeWhile_isPre {α : Type} (p : α → Bool) (l : List α) : l.takeWhile p <+: l :=
  ⟨l.dropWhile p, List.takeWhile_append_dropWhile p l⟩

lemma drop_eq_cons_of_getElem? {α : Type} (l : List α) (n : Nat) (c : α)
    (h : l[n]? = some c) : l.drop n = c :: l.drop (n + 1) := by
  induction l generalizing n with
  | nil => simp at h
  | cons a t ih =>
    cases n with
    | zero =>
      simp only [List.getElem?_cons_zero, Option.some_inj] at h
      simp [h]
    | succ m =>
      simp only [List.getElem?_cons_succ] at h
      simpa [List.drop_succ_cons] using ih m h

lemma chooseLongest_isPre (h : List Char) (cs : List (List Char))
    (hall : ∀ x ∈ cs, x <+: h) : chooseLongest cs <+: h := by
  unfold chooseLongest
  suffices H : ∀ acc, acc <+: h → cs.foldl (fun acc c => if acc.length < c.length then c else acc) acc <+: h by
    exact H [] ⟨h, by simp⟩
  induction cs with
  | nil => intro acc hacc; simpa using hacc
  | cons a t ih =>
    intro acc hacc
    simp only [List.foldl_cons]
    apply ih
    · intro x hx; exact hall x (List.mem_cons_of_mem a hx)
    · by_cases hc : acc.length < a.length
      · simp only [if_pos hc]; exact hall a (List.mem_cons_self a t)
      · simp only [if_neg hc]; exact hacc

lemma getTld_eq_spec (t : TldTries) (host : List Char) (i : Bool) :
    TldTries.getTld t host i = specGetTld t host i := by
  simp only [TldTries.getTld, specGetTld, stripLastLabel, firstLabel, chooseLongest,
    List.foldl_cons, List.foldl_nil, List.length_nil]
  set rhost := host.reverse with hr
  set A := getLongestMatch_ t.exactPatterns rhost i with hA
  set E0 := getLongestMatch_ t.excludePatterns rhost i with hE
  set W := getLongestMatch_ t.wildcardPatterns rhost i with hWdef
  set S := jsSubstrTo E0 (lastIndexOfChar E0 '.') with hSdef
  have hIA : (if 0 < A.length then A else ([] : List Char)) = A := by
    by_cases h : 0 < A.length
    · rw [if_pos h]
    · rw [if_neg h]
      have h0 : A.length = 0 := Nat.eq_zero_of_not_pos h
      exact (List.length_eq_zero.mp h0).symm
  by_cases h1 : E0 = []
  · simp only [h1, List.length_nil, Nat.lt_irrefl, false_and, if_false, ne_eq,
      not_true_eq_false, if_neg]
    rw [hIA]
    simp only [Nat.not_lt_zero, if_false, List.length_pos, ne_eq]
    by_cases h2 : ¬W = [] ∧ W.length < rhost.length ∧ ¬W.length = 0
    · simp only [if_pos h2]
    · simp only [if_neg h2, List.length_nil, Nat.not_lt_zero, if_false]
  · have h1p : 0 < E0.length := List.length_pos.mpr h1
    simp only [eq_true h1p, if_true, true_and, eq_true h1, ne_eq]
    rw [hIA]
    by_cases h2 : ¬W = [] ∧ W.length < rhost.length ∧ ¬W.length = S.length
    · have h2' : 0 < W.length ∧ W.length < rhost.length ∧ ¬W.length = S.length :=
        ⟨List.length_pos.mpr h2.1, h2.2⟩
      simp only [if_pos h2, if_pos h2']
    · have h2' : ¬(0 < W.length ∧ W.length < rhost.length ∧ ¬W.length = S.length) := by
        intro hc
        exact h2 ⟨List.length_pos.mp hc.1, hc.2⟩
      simp only [if_neg h2, if_neg h2', List.length_nil, Nat.not_lt_zero, if_false]

lemma stripLastLabel_isPre (l : List Char) : stripLastLabel l <+: l := by
  unfold stripLastLabel jsSubstrTo
  exact ⟨_, List.take_append_drop _ _⟩

lemma firstLabel_isPre (l : List Char) : firstLabel l <+: l :=
  takeWhile_isPre _ l

lemma getTld_isSuffix (t : TldTries) (host : List Char) (i : Bool) :
    TldTries.getTld t host i <:+ host := by
  rw [getTld_eq_spec]
  simp only [specGetTld]
  have key : ∀ r : List Char, r <+: host.reverse → r.reverse <:+ host := by
    intro r hr
    have h2 := List.reverse_suffix.mpr hr
    rwa [List.reverse_reverse] at h2
  apply key
  apply chooseLongest_isPre
  intro x hx
  simp only [List.mem_cons, List.not_mem_nil, or_false] at hx
  rcases hx with hx | hx | hx
  · rw [hx]; exact glm_isPre _ _ _
  · rw [hx]
    split
    · exact (stripLastLabel_isPre _).trans (glm_isPre _ _ _)
    · exact ⟨host.reverse, rfl⟩
  · rw [hx]
    by_cases hcond : (getLongestMatch_ t.wildcardPatterns host.reverse i ≠ [] ∧
        (getLongestMatch_ t.wildcardPatterns host.reverse i).length < host.reverse.length ∧
        (getLongestMatch_ t.wildcardPatterns host.reverse i).length ≠
          (if getLongestMatch_ t.excludePatterns host.reverse i ≠ [] then
              stripLastLabel (getLongestMatch_ t.excludePatterns host.reverse i)
            else []).length)
    · rw [if_pos hcond]
      obtain ⟨hne, hlt, hne2⟩ := hcond
      obtain ⟨L, hWeq, hLpos, hLle, hvalid⟩ := glm_valid _ _ _ hne
      have hlen : (getLongestMatch_ t.wildcardPatterns host.reverse i).length = L := by
        rw [hWeq, List.length_take]
        exact Nat.min_eq_left hLle
      have hbound := (validMatchLen_spec _ _ _ _ hvalid).2.2.1
      have hLlt : L < host.reverse.length := by rw [← hlen]; exact hlt
      have hdot : host.reverse[L]? = some '.' := by
        rcases hbound with h | h
        · omega
        · exact h
      have hdrop := drop_eq_cons_of_getElem? host.reverse L '.' hdot
      rw [hlen, hWeq]
      obtain ⟨u, hu⟩ := firstLabel_isPre (host.reverse.drop (L + 1))
      refine ⟨u, ?_⟩
      rw [List.append_assoc, List.cons_append, hu, ← hdrop, List.take_append_drop]
    · rw [if_neg hcond]
      exact ⟨host.reverse, rfl⟩

/-- C1: for every rule set loaded into the tries and every hostname `h`,
`getTld(h, false)` is a suffix of `h` as a character string and its length
is at most the length of `h`. -/
theorem c1_getTld_suffix_of_host (t : TldTries) (h : List Char) :
    TldTries.getTld t h false <:+ h ∧ (TldTries.getTld t h false).length ≤ h.length :=
  ⟨getTld_isSuffix t h false, (getTld_isSuffix t h false).length_le⟩

/-- C4 (counterexample): for the rule set consisting of the single exact
rule `com` (reversed: `moc`), the hostname `com` is syntactically valid
with one label, yet `getTld` returns the entire hostname, so the result is
not a proper right-aligned substring. -/
theorem c4_counterexample_entire_hostname :
    TldTries.getTld ⟨[("moc".toList, true)], [], []⟩ ("com".toList) true = ("com".toList) ∧
    ("com".toList) ≠ ([] : List Char) := by
  decide

/-- C4 (amended): the resolution result of `getTld` is always a
right-aligned substring (suffix) of the input hostname; it can be empty
(when no rule matches) and can equal the entire hostname (when the
hostname itself is a listed suffix). -/
theorem c4_amended_suffix (t : TldTries) (host : List Char) (icannOnly : Bool) :
    TldTries.getTld t host icannOnly <:+ host :=
  getTld_isSuffix t host icannOnly

/-- C5: `getTld` equals the candidate composition of the spec — candidate
B is the non-empty excluded-trie match with its last label stripped, and
the wildcard candidate is extended by one extra label from the host
exactly when the wildcard match's length does not coincide with the
stripped excluded match (the exception rule taking precedence); the final
answer is the longest candidate. -/
theorem c5_exclusion_wildcard_composition (t : TldTries) (host : List Char) (icannOnly : Bool) :
    TldTries.getTld t host icannOnly = specGetTld t host icannOnly :=
  getTld_eq_spec t host icannOnly

/-- C6: a non-empty result of `getLongestMatch_` is a key of the trie and
a prefix of the (reversed) host whose next character is end-of-string or
the label separator, and under `icannOnly` its stored value is `true`;
the same single function performs each of the three trie queries, so the
filter applies to each query independently. -/
theorem c6_label_boundary_and_icann_filter (trie : Trie) (host : List Char) (icannOnly : Bool)
    (h : getLongestMatch_ trie host icannOnly ≠ []) :
    getLongestMatch_ trie host icannOnly <+: host ∧
    (Trie.lookup trie (getLongestMatch_ trie host icannOnly)).isSome = true ∧
    (icannOnly = true → Trie.lookup trie (getLongestMatch_ trie host icannOnly) = some true) ∧
    ((getLongestMatch_ trie host icannOnly).length = host.length ∨
      host[(getLongestMatch_ trie host icannOnly).length]? = some '.') := by
  obtain ⟨L, heq, hpos, hle, hvalid⟩ := glm_valid trie host icannOnly h
  obtain ⟨hsome, hpos2, hbound, hicann⟩ := validMatchLen_spec trie host icannOnly L hvalid
  have hlen : (getLongestMatch_ trie host icannOnly).length = L := by
    rw [heq, List.length_take]
    exact Nat.min_eq_left hle
  refine ⟨glm_isPre _ _ _, ?_, ?_, ?_⟩
  · rw [heq]; exact hsome
  · rw [heq]; exact hicann
  · rw [hlen]; exact hbound

/-- C6 (witness): concrete instantiation of the label-boundary theorem. -/
theorem c6_witness :
    getLongestMatch_ [("ba".toList, true)] ("ba.c".toList) true ≠ [] ∧
    (getLongestMatch_ [("ba".toList, true)] ("ba.c".toList) true <+: ("ba.c".toList) ∧
     (Trie.lookup [("ba".toList, true)]
        (getLongestMatch_ [("ba".toList, true)] ("ba.c".toList) true)).isSome = true ∧
     (true = true → Trie.lookup [("ba".toList, true)]
        (getLongestMatch_ [("ba".toList, true)] ("ba.c".toList) true) = some true) ∧
     ((getLongestMatch_ [("ba".toList, true)] ("ba.c".toList) true).length = ("ba.c".toList).length ∨
       ("ba.c".toList)[(getLongestMatch_ [("ba".toList, true)] ("ba.c".toList) true).length]? =
         some '.')) :=
  ⟨by decide, c6_label_boundary_and_icann_filter [("ba".toList, true)] ("ba.c".toList) true (by decide)⟩

lemma lookup_set (t : Trie) (k : List Char) (v : Bool) (k' : List Char) :
    Trie.lookup (Trie.set t k v) k' = if k' = k then some v else Trie.lookup t k' := by
  unfold Trie.set Trie.lookup
  by_cases h : k' = k
  · subst h
    simp [List.find?_cons]
  · have hbeq : (k == k') = false := by
      rw [beq_eq_false_iff_ne]
      exact fun hc => h hc.symm
    simp [List.find?_cons, hbeq, h]

lemma lookup_foldl_set (es : List (List Char × Bool)) :
    ∀ (t : Trie) (k : List Char),
      Trie.lookup (es.foldl (fun t kv => Trie.set t kv.1 kv.2) t) k =
        match findLastVal es k with
        | some v => some v
        | none => Trie.lookup t k := by
  induction es with
  | nil => intro t k; simp [findLastVal]
  | cons kv rest ih =>
    intro t k
    simp only [List.foldl_cons, findLastVal]
    rw [ih]
    cases hf : findLastVal rest k with
    | some v => simp
    | none =>
      simp only []
      rw [lookup_set]
      by_cases h : kv.1 = k
      · have hbeq : (kv.1 == k) = true := beq_iff_eq.mpr h
        rw [hbeq, if_pos h.symm]
        simp
      · have hbeq : (kv.1 == k) = false := by
          rw [beq_eq_false_iff_ne]; exact h
        have h' : ¬ k = kv.1 := fun hc => h hc.symm
        rw [hbeq, if_neg h']
        simp

lemma findLastVal_mem (es : List (List Char × Bool)) (k : List Char) (v : Bool)
    (h : findLastVal es k = some v) : (k, v) ∈ es := by
  induction es with
  | nil => simp [findLastVal] at h
  | cons kv rest ih =>
    rw [findLastVal] at h
    cases hf : findLastVal rest k with
    | some w =>
      rw [hf] at h
      simp only [Option.some_inj] at h
      subst h
      exact List.mem_cons_of_mem _ (ih hf)
    | none =>
      rw [hf] at h
      by_cases hk : kv.1 == k
      · rw [if_pos hk] at h
        simp only [Option.some_inj] at h
        have hk' : kv.1 = k := beq_iff_eq.mp hk
        have : kv = (k, v) := by
          obtain ⟨k1, v1⟩ := kv
          simp only at hk' h
          rw [hk', h]
        rw [← this]
        exact List.mem_cons_self _ _
      · rw [if_neg hk] at h
        exact absurd h (by simp)

lemma findLastVal_none_not_mem (es : List (List Char × Bool)) (k : List Char)
    (h : findLastVal es k = none) : ∀ v, (k, v) ∉ es := by
  induction es with
  | nil => intro v; simp
  | cons kv rest ih =>
    intro v hv
    rw [findLastVal] at h
    cases hf : findLastVal rest k with
    | some w => rw [hf] at h; simp at h
    | none =>
      rw [hf] at h
      rcases List.mem_cons.mp hv with heq | hm
      · rw [← heq] at h
        simp at h
      · exact ih hf v hm

lemma findLastVal_of_mem (es : List (List Char × Bool)) (k : List Char) (v : Bool)
    (h : (k, v) ∈ es) : ∃ w, findLastVal es k = some w ∧ (k, w) ∈ es := by
  cases hf : findLastVal es k with
  | some w => exact ⟨w, rfl, findLastVal_mem es k w hf⟩
  | none => exact absurd h (findLastVal_none_not_mem es k hf v)

lemma parse_sim (fuel : Nat) :
    (∀ pre pat (trie : Trie), doParseTrie_ fuel pre pat trie =
      Option.map (fun r => (r.1, r.2.foldl (fun t kv => Trie.set t kv.1 kv.2) trie))
        (specParseEntries fuel pre pat)) ∧
    (∀ pre pat (trie : Trie), doParseChildren_ fuel pre pat trie =
      Option.map (fun r => (r.1, r.2.foldl (fun t kv => Trie.set t kv.1 kv.2) trie))
        (specParseChildren fuel pre pat)) := by
  induction fuel with
  | zero => exact ⟨fun _ _ _ => rfl, fun _ _ _ => rfl⟩
  | succ n ih =>
    constructor
    · intro pre pat trie
      simp only [doParseTrie_, specParseEntries]
      cases hscan : scanNode pre pat with
      | none => rfl
      | some pcr =>
        obtain ⟨pre2, c, rest⟩ := pcr
        simp only []
        have htrie2 : (if c ≠ '&' then Trie.set trie pre2 (c == '!' || c == '?') else trie) =
            (if c ≠ '&' then [(pre2, c == '!' || c == '?')] else []).foldl
              (fun t kv => Trie.set t kv.1 kv.2) trie := by
          by_cases hamp : c ≠ '&'
          · simp [hamp]
          · simp [hamp]
        rw [htrie2]
        by_cases hleaf : (c == '?' || c == ',') = true
        · simp only [hleaf, if_true, Option.map_some']
        · simp only [hleaf, if_false, Bool.false_eq_true]
          rw [(ih.2) pre2 rest _]
          cases hch : specParseChildren n pre2 rest with
          | none => rfl
          | some pr2 =>
            obtain ⟨rest2, es2⟩ := pr2
            simp only [Option.map_some']
            rw [List.foldl_append]
    · intro pre pat trie
      simp only [doParseChildren_, specParseChildren]
      rw [(ih.1) pre pat trie]
      cases hsp : specParseEntries n pre pat with
      | none => rfl
      | some pr =>
        obtain ⟨rest, es⟩ := pr
        simp only [Option.map_some']
        by_cases hterm : (rest.head? == some '?' || rest.head? == some ',') = true
        · simp only [hterm, if_true, Option.map_some']
        · simp only [hterm, if_false, Bool.false_eq_true]
          rw [(ih.2) pre rest _]
          cases hch : specParseChildren n pre rest with
          | none => rfl
          | some pr2 =>
            obtain ⟨rest2, es2⟩ := pr2
            simp only [Option.map_some']
            rw [List.foldl_append]

/-- C2: for a well-formed encoded pattern (one the parser consumes
completely, with no prefix tagged both ICANN and private), the decoded
trie maps exactly the accumulated literal prefixes that end at a
member-tagged node, to `true` for ICANN tags and `false` for private
tags; prefixes ending only at interior-non-member nodes are not keys. -/
theorem c2_decode_member_prefixes (pattern : List Char) (trie : Trie)
    (es : List (List Char × Bool))
    (hct : createTrie_ pattern = some trie)
    (hsm : specMemberEntries pattern = some es)
    (hcons : ∀ k : List Char, ¬((k, true) ∈ es ∧ (k, false) ∈ es)) :
    ∀ (k : List Char) (v : Bool), Trie.lookup trie k = some v ↔ (k, v) ∈ es := by
  intro k v
  unfold createTrie_ at hct
  unfold specMemberEntries at hsm
  have hsim := (parse_sim (2 * pattern.length + 2)).1 [] pattern []
  cases hsp : specParseEntries (2 * pattern.length + 2) [] pattern with
  | none =>
    rw [hsp] at hsim hsm
    rw [hsim] at hct
    simp at hct
  | some pr =>
    obtain ⟨rest, es'⟩ := pr
    rw [hsp] at hsim hsm
    rw [hsim] at hct
    simp only [Option.map_some'] at hct
    by_cases hrest : rest = []
    · rw [if_pos hrest] at hct
      subst hrest
      simp only [Option.some_inj] at hct
      have hes : es' = es := Option.some_inj.mp hsm
      rw [hes] at hct
      subst hct
      constructor
      · intro hl
        rw [lookup_foldl_set] at hl
        cases hf : findLastVal es k with
        | none =>
          rw [hf] at hl
          simp [Trie.lookup] at hl
        | some w =>
          rw [hf] at hl
          simp only [Option.some_inj] at hl
          subst hl
          exact findLastVal_mem es k _ hf
      · intro hm
        obtain ⟨w, hw, hwm⟩ := findLastVal_of_mem es k v hm
        rw [lookup_foldl_set, hw]
        cases v with
        | true =>
          cases w with
          | true => rfl
          | false => exact absurd ⟨hm, hwm⟩ (hcons k)
        | false =>
          cases w with
          | true => exact absurd ⟨hwm, hm⟩ (hcons k)
          | false => rfl
    · rw [if_neg hrest] at hct
      simp at hct

/-- C2 (witness): the pattern `a&b?c,?` decodes to the member entries
`ab ↦ true` and `ac ↦ false`, with the non-member prefix `a` absent. -/
theorem c2_witness :
    createTrie_ ("a&b?c,?".toList) = some [("ac".toList, false), ("ab".toList, true)] ∧
    specMemberEntries ("a&b?c,?".toList) = some [("ab".toList, true), ("ac".toList, false)] ∧
    (∀ k : List Char, ¬((k, true) ∈ [("ab".toList, true), ("ac".toList, false)] ∧
      (k, false) ∈ [("ab".toList, true), ("ac".toList, false)])) ∧
    (Trie.lookup [("ac".toList, false), ("ab".toList, true)] ("ab".toList) = some true ↔
      ("ab".toList, true) ∈ [("ab".toList, true), ("ac".toList, false)]) := by
  have hcons : ∀ k : List Char, ¬((k, true) ∈ [("ab".toList, true), ("ac".toList, false)] ∧
      (k, false) ∈ [("ab".toList, true), ("ac".toList, false)]) := by
    intro k hk
    obtain ⟨h1, h2⟩ := hk
    simp at h1 h2
    rw [h1] at h2
    exact absurd h2 (by decide)
  exact ⟨by decide, by decide, hcons,
    c2_decode_member_prefixes ("a&b?c,?".toList) [("ac".toList, false), ("ab".toList, true)]
      [("ab".toList, true), ("ac".toList, false)] (by decide) (by decide) hcons ("ab".toList) true⟩

lemma computeAlerts_eq (env : ChromeEnv) (url : Url) (tabId : Nat) :
    computeAlerts env url tabId =
      (if isTopSite env (jsToLowerCase (getDomain url)) = false then [ALERT_MESSAGES_notTopSite] else []) ++
      (if isTopSite env (jsToLowerCase (getDomain url)) = false ∧
          isIDN (jsToLowerCase (getDomain url)) = true then [ALERT_MESSAGES_isIDN] else []) ++
      (if visitedBeforeToday env (jsToLowerCase (getDomain url)) = false then [ALERT_MESSAGES_notVisitedBefore] else []) ++
      (if hasManySubdomains env.tld (jsToLowerCase (getDomain url)) = true then [ALERT_MESSAGES_manySubdomains] else []) ++
      (if hasLongSubdomains env.tld (jsToLowerCase (getDomain url)) = true then [ALERT_MESSAGES_longSubdomains] else []) := by
  simp only [computeAlerts]
  cases h1 : isTopSite env (jsToLowerCase (getDomain url)) <;>
    cases h2 : isIDN (jsToLowerCase (getDomain url)) <;>
    cases h3 : visitedBeforeToday env (jsToLowerCase (getDomain url)) <;>
    cases h4 : hasManySubdomains env.tld (jsToLowerCase (getDomain url)) <;>
    cases h5 : hasLongSubdomains env.tld (jsToLowerCase (getDomain url)) <;>
    simp [h1, h2, h3, h4, h5]

/-- C7: `visitedBeforeToday(domain)` resolves true exactly when the
history collaborator returned no entries at all for the query window, or
some returned entry's URL has hostname equal to `domain`. -/
theorem c7_visited_before_today_empty_history (env : ChromeEnv) (domain : List Char) :
    visitedBeforeToday env domain = true ↔
      (env.historyPages = [] ∨ ∃ p ∈ env.historyPages, getDomain p.url = domain) := by
  unfold visitedBeforeToday
  by_cases h : env.historyPages.length = 0
  · simp [h, List.length_eq_zero.mp h]
  · rw [if_neg h]
    have hne : env.historyPages ≠ [] := by
      intro hc
      rw [hc] at h
      simp at h
    simp [hne, List.any_eq_true, beq_iff_eq]

/-- C3 (counterexample): with the referrer-chain collaborator available and
a chain holding two URL-shortener redirect URLs (which `fetchRedirectUrls`
does collect), `computeAlerts` still returns no redirect-derived alert —
here the empty list — because it never consults the referrer chain. -/
theorem c3_counterexample_redirects_ignored :
    computeAlerts c3Env ⟨("site.com".toList)⟩ 123 = [] ∧
    c3Env.referrerAvailable = true ∧
    fetchRedirectUrls c3Env ("http://site.com".toList) 123 =
      ["http://goo.gl/a".toList, ("https://goo.gl/b".toList)] := by
  decide

/-- C3 (amended): `computeAlerts` never evaluates redirect-based signals;
its result is exactly the messages of the true predicates among
not-top-site, IDN (only on non-top sites), not-visited-before,
many-subdomains and long-subdomains, in that fixed order. -/
theorem c3_amended_fixed_precedence (env : ChromeEnv) (url : Url) (tabId : Nat) :
    computeAlerts env url tabId =
      (if isTopSite env (jsToLowerCase (getDomain url)) = false then [ALERT_MESSAGES_notTopSite] else []) ++
      (if isTopSite env (jsToLowerCase (getDomain url)) = false ∧
          isIDN (jsToLowerCase (getDomain url)) = true then [ALERT_MESSAGES_isIDN] else []) ++
      (if visitedBeforeToday env (jsToLowerCase (getDomain url)) = false then [ALERT_MESSAGES_notVisitedBefore] else []) ++
      (if hasManySubdomains env.tld (jsToLowerCase (getDomain url)) = true then [ALERT_MESSAGES_manySubdomains] else []) ++
      (if hasLongSubdomains env.tld (jsToLowerCase (getDomain url)) = true then [ALERT_MESSAGES_longSubdomains] else []) :=
  computeAlerts_eq env url tabId

/-- C9: the alert list never contains a duplicate message, and the IDN
alert is absent whenever the page's registrable domain (the lowercased
eTLD+1 the source computes) is a member of the top-sites dictionary. -/
theorem c9_nodup_and_no_idn_on_top_sites (env : ChromeEnv) (url : Url) (tabId : Nat) :
    (computeAlerts env url tabId).Nodup ∧
    (env.topSitesList (jsToLowerCase (etldPlusOne env.tld (jsToLowerCase (getDomain url)))) = true →
      ALERT_MESSAGES_isIDN ∉ computeAlerts env url tabId) := by
  constructor
  · rw [computeAlerts_eq]
    cases h1 : isTopSite env (jsToLowerCase (getDomain url)) <;>
      cases h2 : isIDN (jsToLowerCase (getDomain url)) <;>
      cases h3 : visitedBeforeToday env (jsToLowerCase (getDomain url)) <;>
      cases h4 : hasManySubdomains env.tld (jsToLowerCase (getDomain url)) <;>
      cases h5 : hasLongSubdomains env.tld (jsToLowerCase (getDomain url)) <;>
      simp [h1, h2, h3, h4, h5] <;> decide
  · intro h
    rw [computeAlerts_eq]
    have h1 : isTopSite env (jsToLowerCase (getDomain url)) = true := h
    cases h3 : visitedBeforeToday env (jsToLowerCase (getDomain url)) <;>
      cases h4 : hasManySubdomains env.tld (jsToLowerCase (getDomain url)) <;>
      cases h5 : hasLongSubdomains env.tld (jsToLowerCase (getDomain url)) <;>
      simp [h1, h3, h4, h5] <;> decide

/-- C9 (witness): concrete instantiation on a top-site domain. -/
theorem c9_witness :
    c9Env.topSitesList (jsToLowerCase (etldPlusOne c9Env.tld
      (jsToLowerCase (getDomain ⟨("site.com".toList)⟩)))) = true ∧
    ((computeAlerts c9Env ⟨("site.com".toList)⟩ 7).Nodup ∧
      ALERT_MESSAGES_isIDN ∉ computeAlerts c9Env ⟨("site.com".toList)⟩ 7) :=
  ⟨by decide,
   (c9_nodup_and_no_idn_on_top_sites c9Env ⟨("site.com".toList)⟩ 7).1,
   (c9_nodup_and_no_idn_on_top_sites c9Env ⟨("site.com".toList)⟩ 7).2 (by decide)⟩

lemma mem_addToSet (s : List (List Char)) (x y : List Char) :
    y ∈ addToSet s x ↔ y ∈ s ∨ y = x := by
  unfold addToSet
  by_cases h : x ∈ s
  · rw [if_pos h]
    constructor
    · exact Or.inl
    · rintro (hy | rfl)
      · exact hy
      · exact h
  · rw [if_neg h]
    simp

lemma mem_addServerRedirects (url : List Char) (srs : List ServerRedirect) :
    ∀ acc x, x ∈ addServerRedirects url srs acc ↔
      x ∈ acc ∨ (x ≠ url ∧ ∃ sr ∈ srs, sr.url = x) := by
  induction srs with
  | nil => intro acc x; simp [addServerRedirects]
  | cons sr rest ih =>
    intro acc x
    unfold addServerRedirects at ih ⊢
    simp only [List.foldl_cons]
    rw [ih]
    by_cases h : sr.url ≠ url
    · rw [if_pos h, mem_addToSet]
      constructor
      · rintro ((hx | rfl) | ⟨hxu, sr', hsr', hurl⟩)
        · exact Or.inl hx
        · exact Or.inr ⟨h, sr, List.mem_cons_self _ _, rfl⟩
        · exact Or.inr ⟨hxu, sr', List.mem_cons_of_mem _ hsr', hurl⟩
      · rintro (hx | ⟨hxu, sr', hsr', hurl⟩)
        · exact Or.inl (Or.inl hx)
        · rcases List.mem_cons.mp hsr' with rfl | hm
          · exact Or.inl (Or.inr hurl.symm)
          · exact Or.inr ⟨hxu, sr', hm, hurl⟩
    · rw [if_neg h]
      push_neg at h
      constructor
      · rintro (hx | ⟨hxu, sr', hsr', hurl⟩)
        · exact Or.inl hx
        · exact Or.inr ⟨hxu, sr', List.mem_cons_of_mem _ hsr', hurl⟩
      · rintro (hx | ⟨hxu, sr', hsr', hurl⟩)
        · exact Or.inl hx
        · rcases List.mem_cons.mp hsr' with rfl | hm
          · rw [h] at hurl
            exact absurd hurl.symm hxu
          · exact Or.inr ⟨hxu, sr', hm, hurl⟩

lemma mem_collectRedirectUrls (url : List Char) (chain : List ReferrerEntry) :
    ∀ acc x, x ∈ collectRedirectUrls url chain acc ↔
      x ∈ acc ∨ (x ≠ url ∧ ∃ e ∈ chain.takeWhile (fun e => e.urlType == CLIENT_REDIRECT),
        ((e.referrerUrl = some x ∧ x ≠ []) ∨
         (∃ srs, e.serverRedirectChain = some srs ∧ ∃ sr ∈ srs, sr.url = x))) := by
  induction chain with
  | nil => intro acc x; simp [collectRedirectUrls]
  | cons e rest ih =>
    intro acc x
    unfold collectRedirectUrls
    by_cases htype : e.urlType ≠ CLIENT_REDIRECT
    · rw [if_pos htype]
      have hbeq : (e.urlType == CLIENT_REDIRECT) = false := by
        rw [beq_eq_false_iff_ne]
        exact htype
      simp [List.takeWhile_cons, hbeq]
    · rw [if_neg htype]
      push_neg at htype
      have hbeq : (e.urlType == CLIENT_REDIRECT) = true := beq_iff_eq.mpr htype
      simp only [List.takeWhile_cons, hbeq, if_true]
      rw [ih]
      have hacc2 : ∀ y,
          (y ∈ (match e.serverRedirectChain with
                | some srs => addServerRedirects url srs
                    (match e.referrerUrl with
                     | some r => if r ≠ [] then (if r ≠ url then addToSet acc r else acc) else acc
                     | none => acc)
                | none =>
                    (match e.referrerUrl with
                     | some r => if r ≠ [] then (if r ≠ url then addToSet acc r else acc) else acc
                     | none => acc))) ↔
            y ∈ acc ∨ (y ≠ url ∧ ((e.referrerUrl = some y ∧ y ≠ []) ∨
              (∃ srs, e.serverRedirectChain = some srs ∧ ∃ sr ∈ srs, sr.url = y))) := by
        intro y
        cases hr : e.referrerUrl with
        | none =>
          cases hs : e.serverRedirectChain with
          | none => simp
          | some srs => rw [mem_addServerRedirects]; simp
        | some r =>
          cases hs : e.serverRedirectChain with
          | none =>
            dsimp only
            by_cases hre : r ≠ []
            · by_cases hru : r ≠ url
              · rw [if_pos hre, if_pos hru, mem_addToSet]
                constructor
                · rintro (hy | rfl)
                  · exact Or.inl hy
                  · exact Or.inr ⟨hru, Or.inl ⟨rfl, hre⟩⟩
                · rintro (hy | ⟨hyu, ⟨hsome, hynil⟩ | ⟨srs, hsrs, _⟩⟩)
                  · exact Or.inl hy
                  · exact Or.inr (Option.some_inj.mp hsome).symm
                  · exact absurd hsrs (by simp)
              · push_neg at hru
                rw [if_pos hre, if_neg (by rw [hru]; simp)]
                constructor
                · exact Or.inl
                · rintro (hy | ⟨hyu, ⟨hsome, hynil⟩ | ⟨srs, hsrs, _⟩⟩)
                  · exact hy
                  · exact absurd (Option.some_inj.mp hsome ▸ hru) hyu
                  · exact absurd hsrs (by simp)
            · push_neg at hre
              rw [if_neg (by rw [hre]; simp)]
              constructor
              · exact Or.inl
              · rintro (hy | ⟨hyu, ⟨hsome, hynil⟩ | ⟨srs, hsrs, _⟩⟩)
                · exact hy
                · exact absurd (hre ▸ Option.some_inj.mp hsome) (by simpa using hynil.symm)
                · exact absurd hsrs (by simp)
          | some srs =>
            dsimp only
            rw [mem_addServerRedirects]
            by_cases hre : r ≠ []
            · by_cases hru : r ≠ url
              · rw [if_pos hre, if_pos hru, mem_addToSet]
                constructor
                · rintro ((hy | rfl) | ⟨hyu, hex⟩)
                  · exact Or.inl hy
                  · exact Or.inr ⟨hru, Or.inl ⟨rfl, hre⟩⟩
                  · exact Or.inr ⟨hyu, Or.inr ⟨srs, rfl, hex⟩⟩
                · rintro (hy | ⟨hyu, ⟨hsome, hynil⟩ | ⟨srs', hsrs, hex⟩⟩)
                  · exact Or.inl (Or.inl hy)
                  · exact Or.inl (Or.inr (Option.some_inj.mp hsome).symm)
                  · exact Or.inr ⟨hyu, (Option.some_inj.mp hsrs) ▸ hex⟩
              · push_neg at hru
                rw [if_pos hre, if_neg (by rw [hru]; simp)]
                constructor
                · rintro (hy | ⟨hyu, hex⟩)
                  · exact Or.inl hy
                  · exact Or.inr ⟨hyu, Or.inr ⟨srs, rfl, hex⟩⟩
                · rintro (hy | ⟨hyu, ⟨hsome, hynil⟩ | ⟨srs', hsrs, hex⟩⟩)
                  · exact Or.inl hy
                  · exact absurd (Option.some_inj.mp hsome ▸ hru) hyu
                  · exact Or.inr ⟨hyu, (Option.some_inj.mp hsrs) ▸ hex⟩
            · push_neg at hre
              rw [if_neg (by rw [hre]; simp)]
              constructor
              · rintro (hy | ⟨hyu, hex⟩)
                · exact Or.inl hy
                · exact Or.inr ⟨hyu, Or.inr ⟨srs, rfl, hex⟩⟩
              · rintro (hy | ⟨hyu, ⟨hsome, hynil⟩ | ⟨srs', hsrs, hex⟩⟩)
                · exact Or.inl hy
                · exact absurd (hre ▸ Option.some_inj.mp hsome) (by simpa using hynil.symm)
                · exact Or.inr ⟨hyu, (Option.some_inj.mp hsrs) ▸ hex⟩
      rw [hacc2 x]
      simp only [List.mem_cons, exists_eq_or_imp]
      constructor
      · rintro ((hx | ⟨hxu, hp⟩) | ⟨hxu, hex⟩)
        · exact Or.inl hx
        · exact Or.inr ⟨hxu, Or.inl hp⟩
        · exact Or.inr ⟨hxu, Or.inr hex⟩
      · rintro (hx | ⟨hxu, hp | hex⟩)
        · exact Or.inl (Or.inl hx)
        · exact Or.inl (Or.inr ⟨hxu, hp⟩)
        · exact Or.inr ⟨hxu, hex⟩

/-- C8: a URL is in the set returned by `fetchRedirectUrls` exactly when
the referrer-chain collaborator is available, the URL differs from the
page's own URL, and it is the (truthy) referrer URL or a server-redirect
URL of an entry in the maximal client-redirect prefix of the chain. -/
theorem c8_fetch_redirect_urls_membership (env : ChromeEnv) (url : List Char) (tabId : Nat)
    (x : List Char) :
    x ∈ fetchRedirectUrls env url tabId ↔
      (env.referrerAvailable = true ∧ x ≠ url ∧
       ∃ e ∈ (env.referrerChain tabId).takeWhile (fun e => e.urlType == CLIENT_REDIRECT),
         ((e.referrerUrl = some x ∧ x ≠ []) ∨
          (∃ srs, e.serverRedirectChain = some srs ∧ ∃ sr ∈ srs, sr.url = x))) := by
  unfold fetchRedirectUrls
  by_cases h : env.referrerAvailable = true
  · rw [if_pos h, mem_collectRedirectUrls]
    simp [h]
  · rw [if_neg h]
    simp [h]

/-- C10: when `'.' + getTld(domain, true)` does not occur in `domain`
(`lastIndexOf` returns −1), `getDomainPartsWithoutTld` is the domain with
its final character removed, split on `'.'`, and the subdomain-shape and
top-site evaluators operate on that truncated label list. -/
theorem c10_parts_on_absent_suffix (env : ChromeEnv) (domain : List Char)
    (h : lastIndexOfSub domain ('.' :: TldTries.getTld env.tld domain true) = -1) :
    getDomainPartsWithoutTld env.tld domain = List.splitOn '.' (domain.take (domain.length - 1)) ∧
    hasManySubdomains env.tld domain =
      decide (NUM_SUSPICIOUS_SUBDOMAINS ≤ (List.splitOn '.' (domain.take (domain.length - 1))).length) ∧
    hasLongSubdomains env.tld domain =
      (List.splitOn '.' (domain.take (domain.length - 1))).any
        (fun s => decide (SUSPICIOUS_SUBDOMAIN_LENGTH ≤ s.length)) ∧
    isTopSite env domain = env.topSitesList (jsToLowerCase
      ((List.splitOn '.' (domain.take (domain.length - 1))).getLastD [] ++
        '.' :: TldTries.getTld env.tld domain true)) := by
  have hparts : getDomainPartsWithoutTld env.tld domain =
      List.splitOn '.' (domain.take (domain.length - 1)) := by
    simp only [getDomainPartsWithoutTld]
    rw [h]
    simp only [jsSliceTo]
    congr 2
    rw [if_pos (by norm_num)]
    omega
  refine ⟨hparts, ?_, ?_, ?_⟩
  · simp only [hasManySubdomains]
    rw [hparts]
  · simp only [hasLongSubdomains]
    rw [hparts]
  · simp only [isTopSite, etldPlusOne]
    rw [hparts]

/-- C10 (witness): for the hostname `com`, itself the listed public
suffix, the suffix `.com` does not occur, and the evaluators operate on
the truncated label `co`. -/
theorem c10_witness :
    lastIndexOfSub ("com".toList) ('.' :: TldTries.getTld c10Env.tld ("com".toList) true) = -1 ∧
    (getDomainPartsWithoutTld c10Env.tld ("com".toList) =
        List.splitOn '.' ("com".toList.take ("com".toList.length - 1)) ∧
     hasManySubdomains c10Env.tld ("com".toList) =
        decide (NUM_SUSPICIOUS_SUBDOMAINS ≤
          (List.splitOn '.' ("com".toList.take ("com".toList.length - 1))).length) ∧
     hasLongSubdomains c10Env.tld ("com".toList) =
        (List.splitOn '.' ("com".toList.take ("com".toList.length - 1))).any
          (fun s => decide (SUSPICIOUS_SUBDOMAIN_LENGTH ≤ s.length)) ∧
     isTopSite c10Env ("com".toList) = c10Env.topSitesList (jsToLowerCase
        ((List.splitOn '.' ("com".toList.take ("com".toList.length - 1))).getLastD [] ++
          '.' :: TldTries.getTld c10Env.tld ("com".toList) true))) :=
  ⟨by decide, c10_parts_on_absent_suffix c10Env ("com".toList) (by decide)⟩
